import Mathlib

/-
Verification of the replikate core: the TSV row-serialization contract
(src/tsv.rs), the config-name to project-path derivation, the loader's
error mapping, the dispatcher sequencing of run_app, and the directory
tree builder create_tree (src/main.rs).

Rust strings are modelled as lists of characters.  Filesystem paths are
modelled as lists of path components.
-/

namespace Replikate

/-! ## TSV row serialization (src/tsv.rs) -/

/-- Rust str.replace from src/tsv.rs, specialized to the one-character
pattern used there (the pattern is the one-character string holding a
double quote): every occurrence of the pattern character is replaced by
the replacement string. -/
def replaceChar (pat : Char) (rep : List Char) : List Char → List Char
  | [] => []
  | c :: rest =>
    if c = pat then rep ++ replaceChar pat rep rest
    else c :: replaceChar pat rep rest

/-- TSVSerializable for String and for str references (src/tsv.rs lines
33-43): the text is wrapped in double quotes after doubling every internal
double quote via replace. -/
def string_to_tsv_format (s : List Char) : List Char :=
  '"' :: (replaceChar '"' ['"', '"'] s ++ ['"'])

/-- Values carrying the TSVSerializable capability that the claims exercise:
booleans and integers stand for the primitive impls generated by the
tsv_serializable macro, strV for the String and str impls, seqV for the
Vec impl and boxV for the Box impls (src/tsv.rs). -/
inductive TSVValue where
  | boolV (b : Bool)
  | intV (n : Int)
  | strV (s : List Char)
  | seqV (elems : List TSVValue)
  | boxV (v : TSVValue)

mutual

/-- to_tsv_format (src/tsv.rs): primitives render via to_string, strings
render quoted with internal quotes doubled, a Vec renders its first element
followed by tab-prefixed remaining elements, a Box delegates to its
content. -/
def TSVValue.to_tsv_format : TSVValue → List Char
  | .boolV b => if b then ("true".toList) else ("false".toList)
  | .intV n => (toString n).toList
  | .strV s => string_to_tsv_format s
  | .seqV l => seq_to_tsv_format l
  | .boxV v => TSVValue.to_tsv_format v

/-- The Vec branch of to_tsv_format (src/tsv.rs lines 45-59): empty gives
the empty string, otherwise the first field followed by the loop over the
remaining indices. -/
def seq_to_tsv_format : List TSVValue → List Char
  | [] => []
  | x :: rest => TSVValue.to_tsv_format x ++ seq_tail_to_tsv_format rest

/-- The body of the for loop in the Vec impl: each further field is pushed
after a tab character. -/
def seq_tail_to_tsv_format : List TSVValue → List Char
  | [] => []
  | y :: rest => '\t' :: (TSVValue.to_tsv_format y ++ seq_tail_to_tsv_format rest)

end

/-- The spec's words for sequence rendering: the field texts joined by a
single separator, with no trailing separator, the empty sequence rendering
as the empty string. -/
def joinBy (sep : List Char) : List (List Char) → List Char
  | [] => []
  | [x] => x
  | x :: y :: rest => x ++ sep ++ joinBy sep (y :: rest)

/-- The spec's words for quoting: every double-quote character of the text
is doubled, all other characters are kept. -/
def doubleQuotes (s : List Char) : List Char :=
  (s.map (fun c => if c = '"' then [c, c] else [c])).flatten

theorem replaceChar_quote_eq_doubleQuotes (s : List Char) :
    replaceChar '"' ['"', '"'] s = doubleQuotes s := by
  induction s with
  | nil => rfl
  | cons c rest ih =>
    by_cases hc : c = '"' <;>
      simp [replaceChar, doubleQuotes, hc] <;>
      simpa [doubleQuotes] using ih

/-- Claim C8: serializing a text value wraps it in double quotes and doubles
every internal double-quote character; in particular the value
He said "hi" serializes to "He said ""hi""". -/
theorem c8_string_quoting :
    (∀ s : List Char, string_to_tsv_format s = '"' :: (doubleQuotes s ++ ['"']))
    ∧ string_to_tsv_format ("He said \"hi\"".toList) = ("\"He said \"\"hi\"\"\"".toList) := by
  constructor
  · intro s
    simp [string_to_tsv_format, replaceChar_quote_eq_doubleQuotes]
  · decide

theorem seq_tail_join (l : List TSVValue) :
    ∀ x : List Char,
      x ++ seq_tail_to_tsv_format l = joinBy ['\t'] (x :: l.map TSVValue.to_tsv_format) := by
  induction l with
  | nil => intro x; simp [seq_tail_to_tsv_format, joinBy]
  | cons y rest ih =>
    intro x
    have hy := ih (TSVValue.to_tsv_format y)
    simp only [seq_tail_to_tsv_format, List.map_cons, joinBy]
    rw [← hy]
    simp

/-- Claim C9: a sequence serializes to its elements' serializations joined by
single tabs with no trailing tab, the empty sequence serializes to the empty
string, a boxed value serializes exactly as the value it owns, and the
sequence holding 1, the text a,b and true serializes to the three
tab-separated fields. -/
theorem c9_seq_and_box :
    (∀ l : List TSVValue,
        (TSVValue.seqV l).to_tsv_format = joinBy ['\t'] (l.map TSVValue.to_tsv_format))
    ∧ (TSVValue.seqV []).to_tsv_format = []
    ∧ (∀ v : TSVValue, (TSVValue.boxV v).to_tsv_format = v.to_tsv_format)
    ∧ (TSVValue.seqV [TSVValue.intV 1, TSVValue.strV ("a,b".toList), TSVValue.boolV true]).to_tsv_format
        = ("1\t\"a,b\"\ttrue".toList) := by
  refine ⟨?_, ?_, ?_, ?_⟩
  · intro l
    match l with
    | [] => rfl
    | x :: rest =>
      simp only [TSVValue.to_tsv_format, seq_to_tsv_format]
      exact seq_tail_join rest (TSVValue.to_tsv_format x)
  · rfl
  · intro v
    simp [TSVValue.to_tsv_format]
  · decide

/-! ## Project path derivation (src/main.rs lines 81-86) -/

/-- Rust str.rfind for a character pattern: the index of the last occurrence,
none when the character does not occur. -/
def lastIndexOf (c : Char) : List Char → Option Nat
  | [] => none
  | x :: rest =>
    match lastIndexOf c rest with
    | some i => some (i + 1)
    | none => if x = c then some 0 else none

/-- Lines 81-86 of src/main.rs: when the config argument contains a dot,
the project path is the slice before the last dot, otherwise the whole
argument.  The none branch of the match is unreachable under the
containment guard; it returns the argument unchanged. -/
def derive_path (config : List Char) : List Char :=
  if '.' ∈ config then
    match lastIndexOf '.' config with
    | some i => config.take i
    | none => config
  else config

/-- The claim's words: the base name of the config file, the component after
the last path separator. -/
def baseName (config : List Char) : List Char :=
  match lastIndexOf '/' config with
  | some i => config.drop (i + 1)
  | none => config

/-- The claim's words: the base name with its final extension, everything
after the last dot, stripped; the base name unchanged when it has no dot. -/
def spec_derived_path (config : List Char) : List Char :=
  if '.' ∈ (baseName config) then
    match lastIndexOf '.' (baseName config) with
    | some i => (baseName config).take i
    | none => baseName config
  else baseName config

theorem lastIndexOf_none_not_mem {c : Char} :
    ∀ {l : List Char}, lastIndexOf c l = none → c ∉ l := by
  intro l
  induction l with
  | nil => intro _ hmem; simp at hmem
  | cons x rest ih =>
    intro h hmem
    rcases hrest : lastIndexOf c rest with _ | i
    · simp only [lastIndexOf, hrest] at h
      by_cases hx : x = c
      · simp [hx] at h
      · rcases List.mem_cons.mp hmem with h1 | h2
        · exact hx h1.symm
        · exact ih hrest h2
    · simp [lastIndexOf, hrest] at h

theorem lastIndexOf_some_get {c : Char} :
    ∀ {l : List Char} {i : Nat}, lastIndexOf c l = some i → l[i]? = some c := by
  intro l
  induction l with
  | nil => intro i h; simp [lastIndexOf] at h
  | cons x rest ih =>
    intro i h
    rcases hrest : lastIndexOf c rest with _ | j
    · simp only [lastIndexOf, hrest] at h
      by_cases hx : x = c
      · rw [if_pos hx] at h
        simp only [Option.some_inj] at h
        subst h
        simp [hx]
      · simp [hx] at h
    · simp only [lastIndexOf, hrest, Option.some_inj] at h
      subst h
      simpa using ih hrest

theorem lastIndexOf_some_last {c : Char} :
    ∀ {l : List Char} {i : Nat}, lastIndexOf c l = some i →
      ∀ j, i < j → l[j]? ≠ some c := by
  intro l
  induction l with
  | nil => intro i h; simp [lastIndexOf] at h
  | cons x rest ih =>
    intro i h j hij habs
    rcases hrest : lastIndexOf c rest with _ | k
    · simp only [lastIndexOf, hrest] at h
      by_cases hx : x = c
      · rw [if_pos hx] at h
        simp only [Option.some_inj] at h
        subst h
        rcases j with _ | j2
        · omega
        · rw [List.getElem?_cons_succ] at habs
          rcases List.getElem?_eq_some.mp habs with ⟨hlt, hget⟩
          exact lastIndexOf_none_not_mem hrest (hget ▸ List.getElem_mem hlt)
      · simp [hx] at h
    · simp only [lastIndexOf, hrest, Option.some_inj] at h
      subst h
      rcases j with _ | j2
      · omega
      · rw [List.getElem?_cons_succ] at habs
        exact ih hrest j2 (by omega) habs

theorem lastIndexOf_mem_isSome {c : Char} {l : List Char} (h : c ∈ l) :
    ∃ i, lastIndexOf c l = some i := by
  rcases hl : lastIndexOf c l with _ | i
  · exact absurd h (lastIndexOf_none_not_mem hl)
  · exact ⟨i, rfl⟩

/-- Claim C5 counterexample: on the config argument dir/experiment.yaml the
code keeps everything before the last dot of the whole argument, giving
dir/experiment, while the claim's base-name rule gives experiment. -/
theorem c5_counterexample :
    derive_path ("dir/experiment.yaml".toList) = ("dir/experiment".toList)
    ∧ spec_derived_path ("dir/experiment.yaml".toList) = ("experiment".toList)
    ∧ derive_path ("dir/experiment.yaml".toList) ≠ spec_derived_path ("dir/experiment.yaml".toList) := by
  refine ⟨by decide, by decide, by decide⟩

/-- Claim C5 amended: the derived project path is the whole config argument
with everything from its last dot onward removed (the dot at the returned
index is the last one), the argument unchanged when it has no dot; this
coincides with the base-name rule whenever the argument has no path
separator, and experiment.yaml yields experiment while run yields run. -/
theorem c5_amended :
    (∀ (cfg : List Char) (i : Nat), lastIndexOf '.' cfg = some i →
        cfg[i]? = some '.'
        ∧ (∀ j, i < j → cfg[j]? ≠ some '.')
        ∧ derive_path cfg = cfg.take i)
    ∧ (∀ cfg : List Char, lastIndexOf '.' cfg = none → derive_path cfg = cfg)
    ∧ (∀ cfg : List Char, ('/' : Char) ∉ cfg → derive_path cfg = spec_derived_path cfg)
    ∧ derive_path ("experiment.yaml".toList) = ("experiment".toList)
    ∧ derive_path ("run".toList) = ("run".toList) := by
  refine ⟨?_, ?_, ?_, by decide, by decide⟩
  · intro cfg i h
    refine ⟨lastIndexOf_some_get h, lastIndexOf_some_last h, ?_⟩
    have hmem : '.' ∈ cfg := by
      rcases List.getElem?_eq_some.mp (lastIndexOf_some_get h) with ⟨hlt, hget⟩
      exact hget ▸ List.getElem_mem hlt
    simp [derive_path, hmem, h]
  · intro cfg h
    have hnot := lastIndexOf_none_not_mem h
    simp [derive_path, hnot]
  · intro cfg h
    have hbase : baseName cfg = cfg := by
      rcases hl : lastIndexOf '/' cfg with _ | i
      · simp [baseName, hl]
      · rcases List.getElem?_eq_some.mp (lastIndexOf_some_get hl) with ⟨hlt, hget⟩
        exact absurd (hget ▸ List.getElem_mem hlt) h
    simp [derive_path, spec_derived_path, hbase]

/-- Witness for the amended claim C5 at the config name experiment.yaml,
whose last dot sits at index 10. -/
theorem c5_amended_witness :
    derive_path ("experiment.yaml".toList) = ("experiment.yaml".toList).take 10 :=
  (c5_amended.1 ("experiment.yaml".toList) 10 (by decide)).2.2

/-- Claim C6 counterexample: the config name .y is non-empty and a file of
that name is openable, yet the derived path is empty, since the whole name
sits after its last dot. -/
theorem c6_counterexample :
    (".y".toList ≠ ([] : List Char)) ∧ derive_path (".y".toList) = [] := by
  refine ⟨by decide, by decide⟩

/-- Claim C6 amended: for a non-empty config name the assigned path is empty
exactly when the name's last dot is its first character (as in a dotfile
such as .y); in every other case the path is non-empty. -/
theorem c6_amended :
    ∀ cfg : List Char, cfg ≠ [] →
      (derive_path cfg = [] ↔ lastIndexOf '.' cfg = some 0) := by
  intro cfg hne
  rcases h : lastIndexOf '.' cfg with _ | i
  · have hnot := lastIndexOf_none_not_mem h
    simp [derive_path, hnot, hne]
  · have hmem : '.' ∈ cfg := by
      rcases List.getElem?_eq_some.mp (lastIndexOf_some_get h) with ⟨hlt, hg⟩
      exact hg ▸ List.getElem_mem hlt
    simp only [derive_path, if_pos hmem, h]
    rw [List.take_eq_nil_iff]
    constructor
    · intro hcase
      rcases hcase with h1 | h2
      · simp [h1]
      · exact absurd h2 hne
    · intro hi
      simp only [Option.some_inj] at hi
      left
      exact hi

/-- Witness for the amended claim C6 at the dotfile name .y. -/
theorem c6_amended_witness :
    derive_path (".y".toList) = [] ↔ lastIndexOf '.' (".y".toList) = some 0 :=
  c6_amended (".y".toList) (by decide)

/-! ## Project model and config loading (src/main.rs lines 78-89)

The module model.rs is not among the sources; the Project value, its
set_path transformation and its from_yaml constructor are modelled from
the spec where needed.  The yaml parser is an external collaborator and
enters only through its success-or-failure outcome. -/

/-- Modelled from the spec: a Requirement of model.rs (absent from src/),
a name and a version, informational only. -/
structure Requirement where
  name : List Char
  version : List Char
deriving DecidableEq

/-- Modelled from the spec: an Experiment of model.rs (absent from src/);
only the name matters to the tree builder and dispatcher, the run
parameters are opaque to the core. -/
structure Experiment where
  name : List Char
deriving DecidableEq

/-- Modelled from the spec: the Project of model.rs (absent from src/):
root path, ordered requirements, ordered experiments; the stage
configuration blocks are opaque to the verified code and omitted. -/
structure Project where
  path : List Char
  requirements : List Requirement
  experiments : List Experiment
deriving DecidableEq

/-- Modelled from the spec: set_path of model.rs (absent from src/), the
explicit transformation assigning the derived path and returning the
updated Project. -/
def Project.set_path (p : Project) (s : List Char) : Project :=
  { p with path := s }

/-- Modelled from the spec: the structured parse failure of model.rs
(absent from src/), carrying context identifying the offending field. -/
structure ParsingError where
  field : List Char
deriving DecidableEq

/-- Stand-in for the error the external yaml parser reports on malformed
document syntax; its content is opaque to the verified code. -/
structure ScanError where
  msg : List Char
deriving DecidableEq

/-- Stand-in for the parsed yaml document tree handed to from_yaml; the
verified code passes it through without inspecting it. -/
inductive Yaml where
  | doc (id : Nat)
deriving DecidableEq

/-- The io error kinds the filesystem model distinguishes, standing for
std io ErrorKind values. -/
inductive IOErrorKind where
  | notFound
  | permissionDenied
  | alreadyExists
  | notADirectory
deriving DecidableEq

/-- AppError (src/main.rs lines 42-48): missing CLI argument, io failure
carrying the offending path and the underlying error, free-text external
failure, and structured parse failure. -/
inductive AppError where
  | MissingArgument (name : List Char)
  | IOError (path : List Char) (err : IOErrorKind)
  | ExternalError (message : List Char)
  | Parsing (err : ParsingError)
deriving DecidableEq

instance {ε α : Type} [DecidableEq ε] [DecidableEq α] : DecidableEq (Except ε α) := fun x y =>
  match x, y with
  | .ok a, .ok b =>
      if h : a = b then Decidable.isTrue (by rw [h]) else Decidable.isFalse (by simp [h])
  | .error a, .error b =>
      if h : a = b then Decidable.isTrue (by rw [h]) else Decidable.isFalse (by simp [h])
  | .ok _, .error _ => Decidable.isFalse (by simp)
  | .error _, .ok _ => Decidable.isFalse (by simp)

/-- Lines 78-89 of src/main.rs: the yaml parse outcome is mapped on failure
to ExternalError with the message naming the config file; on success
from_yaml builds the Project (a Parsing failure on error) and the derived
path is assigned via set_path.  from_yaml is a parameter because model.rs
is not among the sources. -/
def load_project (config : List Char)
    (yamlResult : Except ScanError Yaml)
    (from_yaml : Yaml → Except ParsingError Project) : Except AppError Project :=
  match yamlResult with
  | .error _ =>
      .error (AppError.ExternalError (("Cannot parse ".toList) ++ config ++ (" as yaml file.".toList)))
  | .ok doc =>
      match from_yaml doc with
      | .error e => .error (AppError.Parsing e)
      | .ok proj => .ok (proj.set_path (derive_path config))

/-- The claim's words: whether a load outcome is an error of the Parse-error
kind of the taxonomy. -/
def isParseErrorResult : Except AppError Project → Bool
  | .error (AppError.Parsing _) => true
  | _ => false

/-- A concrete schema mapper standing in for from_yaml, used only to
instantiate counterexamples and witnesses. -/
def stub_from_yaml : Yaml → Except ParsingError Project :=
  fun _ => .ok { path := [], requirements := [], experiments := [] }

/-- Claim C7 counterexample: on a yaml syntax failure the loader returns an
ExternalError naming the file, not an error of the Parse-error kind that
the taxonomy reserves for schema failures. -/
theorem c7_counterexample :
    load_project ("conf.yaml".toList) (.error { msg := ("bad".toList) }) stub_from_yaml
      = .error (AppError.ExternalError ("Cannot parse conf.yaml as yaml file.".toList))
    ∧ isParseErrorResult
        (load_project ("conf.yaml".toList) (.error { msg := ("bad".toList) }) stub_from_yaml)
      = false := by
  refine ⟨by decide, by decide⟩

/-- Claim C7 amended: malformed document syntax yields an error of the
External-error kind whose message names the config file, and no Project is
produced; the Parse-error kind arises exactly from schema-level from_yaml
failures on a syntactically valid document. -/
theorem c7_amended :
    (∀ (cfg : List Char) (e : ScanError) (fy : Yaml → Except ParsingError Project),
        load_project cfg (.error e) fy
          = .error (AppError.ExternalError (("Cannot parse ".toList) ++ cfg ++ (" as yaml file.".toList))))
    ∧ (∀ (cfg : List Char) (d : Yaml) (fy : Yaml → Except ParsingError Project) (pe : ParsingError),
        fy d = .error pe → load_project cfg (.ok d) fy = .error (AppError.Parsing pe)) := by
  constructor
  · intro cfg e fy
    rfl
  · intro cfg d fy pe h
    simp [load_project, h]

/-- Witness for the amended claim C7: a schema failure on a well-formed
document surfaces as a Parsing error. -/
theorem c7_amended_witness :
    load_project ("c.yaml".toList) (.ok (Yaml.doc 0))
        (fun _ => .error { field := ("name".toList) })
      = .error (AppError.Parsing { field := ("name".toList) }) :=
  c7_amended.2 ("c.yaml".toList) (Yaml.doc 0)
    (fun _ => .error { field := ("name".toList) }) { field := ("name".toList) } rfl

/-! ## Dispatcher sequencing (src/main.rs lines 91-115)

run_app, after constructing the Project, calls create_tree and then the
requested stages in a fixed textual order, each call propagating failure
with the question-mark operator.  The stage runners live in modules absent
from src/ (git.rs, build.rs, clean.rs, execute.rs), so each call is
modelled from the spec as an opaque success-or-error outcome supplied to
the dispatcher; the two create_tree calls likewise enter through their
outcomes.  The boolean flags form a set, which makes the behaviour
independent of the order the flags were given on the command line. -/

/-- Success or failure of one externally-effectful call, the shape of the
Rust Result values run_app propagates. -/
inductive RResult where
  | ok
  | err (e : AppError)
deriving DecidableEq

/-- The observable calls run_app makes: the tree builder, the requirements
listing, and the four stage runners (fetch is the git stage, execute the
run stage). -/
inductive Action where
  | treeBuild
  | listRequirements
  | fetch
  | build
  | clean
  | execute
deriving DecidableEq

/-- The boolean flags run_app reads (src/main.rs lines 93, 100, 103, 106,
111): requirements, git, build, clean, run. -/
structure Flags where
  requirements : Bool
  git : Bool
  build : Bool
  clean : Bool
  run : Bool
deriving DecidableEq

/-- The outcomes of the calls one invocation can make: the first
create_tree, the git, build and clean stage runners, the create_tree
re-run after clean, and the execute stage runner. -/
structure StageOutcomes where
  tree1 : RResult
  gitO : RResult
  buildO : RResult
  cleanO : RResult
  tree2 : RResult
  executeO : RResult
deriving DecidableEq

/-- One question-mark-propagating call: when an earlier call has already
failed, control has left run_app and the call is never made; otherwise the
call is recorded in the trace and its failure, if any, becomes the
returned error. -/
def andThen (st : List Action × Option AppError) (a : Action) (r : RResult) :
    List Action × Option AppError :=
  match st.2 with
  | some _ => st
  | none =>
    match r with
    | .ok => (st.1 ++ [a], none)
    | .err e => (st.1 ++ [a], some e)

/-- run_app after project construction (src/main.rs lines 91-115):
create_tree, then, under their flags: the requirements listing (which
cannot fail), the git stage, the build stage, the clean stage immediately
followed by a create_tree re-run, and the execute stage.  The result is
the trace of calls made and the error returned, none on success. -/
def run_app_stages (f : Flags) (b : StageOutcomes) : List Action × Option AppError :=
  let s0 := andThen ([], none) Action.treeBuild b.tree1
  let s1 := if f.requirements then andThen s0 Action.listRequirements RResult.ok else s0
  let s2 := if f.git then andThen s1 Action.fetch b.gitO else s1
  let s3 := if f.build then andThen s2 Action.build b.buildO else s2
  let s4 := if f.clean then andThen (andThen s3 Action.clean b.cleanO) Action.treeBuild b.tree2 else s3
  if f.run then andThen s4 Action.execute b.executeO else s4

/-- The calls run_app would make under the given flags, in source order,
paired with their outcomes. -/
def dispatch_steps (f : Flags) (b : StageOutcomes) : List (Action × RResult) :=
  (Action.treeBuild, b.tree1) ::
    ((if f.requirements then [(Action.listRequirements, RResult.ok)] else []) ++
     (if f.git then [(Action.fetch, b.gitO)] else []) ++
     (if f.build then [(Action.build, b.buildO)] else []) ++
     (if f.clean then [(Action.clean, b.cleanO), (Action.treeBuild, b.tree2)] else []) ++
     (if f.run then [(Action.execute, b.executeO)] else []))

/-- The fixed dispatch order of the claim: tree build first, then the
requested actions among list-requirements, fetch, build, clean (followed
immediately by a tree rebuild) and execute. -/
def canonical_trace (f : Flags) : List Action :=
  Action.treeBuild ::
    ((if f.requirements then [Action.listRequirements] else []) ++
     (if f.git then [Action.fetch] else []) ++
     (if f.build then [Action.build] else []) ++
     (if f.clean then [Action.clean, Action.treeBuild] else []) ++
     (if f.run then [Action.execute] else []))

/-- Sequential execution of a list of calls under question-mark
propagation. -/
def run_steps (st : List Action × Option AppError) :
    List (Action × RResult) → List Action × Option AppError
  | [] => st
  | (a, r) :: rest => run_steps (andThen st a r) rest

theorem run_app_stages_eq_run_steps (f : Flags) (b : StageOutcomes) :
    run_app_stages f b = run_steps ([], none) (dispatch_steps f b) := by
  obtain ⟨fr, fg, fb, fc, fn⟩ := f
  cases fr <;> cases fg <;> cases fb <;> cases fc <;> cases fn <;> rfl

theorem dispatch_steps_fst (f : Flags) (b : StageOutcomes) :
    (dispatch_steps f b).map Prod.fst = canonical_trace f := by
  obtain ⟨fr, fg, fb, fc, fn⟩ := f
  cases fr <;> cases fg <;> cases fb <;> cases fc <;> cases fn <;> rfl

theorem run_steps_all_ok :
    ∀ (l : List (Action × RResult)) (tr : List Action),
      (∀ p ∈ l, p.2 = RResult.ok) →
      run_steps (tr, none) l = (tr ++ l.map Prod.fst, none) := by
  intro l
  induction l with
  | nil => intro tr _; simp [run_steps]
  | cons p rest ih =>
    intro tr h
    obtain ⟨a, r⟩ := p
    have hr : r = RResult.ok := h (a, r) (List.mem_cons_self _ _)
    subst hr
    have hrest : ∀ q ∈ rest, q.2 = RResult.ok := fun q hq => h q (List.mem_cons_of_mem _ hq)
    simp only [run_steps, andThen]
    rw [ih (tr ++ [a]) hrest]
    simp

theorem run_steps_after_failure :
    ∀ (l : List (Action × RResult)) (tr : List Action) (e : AppError),
      run_steps (tr, some e) l = (tr, some e) := by
  intro l
  induction l with
  | nil => intro tr e; rfl
  | cons p rest ih =>
    intro tr e
    obtain ⟨a, r⟩ := p
    simp only [run_steps, andThen]
    exact ih tr e

theorem run_steps_error_split :
    ∀ (l : List (Action × RResult)) (tr tr2 : List Action) (e : AppError),
      run_steps (tr, none) l = (tr2, some e) →
      ∃ pre a rest,
        l = pre ++ (a, RResult.err e) :: rest
        ∧ (∀ p ∈ pre, p.2 = RResult.ok)
        ∧ tr2 = tr ++ pre.map Prod.fst ++ [a] := by
  intro l
  induction l with
  | nil => intro tr tr2 e h; simp [run_steps] at h
  | cons p rest ih =>
    intro tr tr2 e h
    obtain ⟨a, r⟩ := p
    cases r with
    | ok =>
      simp only [run_steps, andThen] at h
      rcases ih (tr ++ [a]) tr2 e h with ⟨pre, a2, rest2, hsplit, hpre, htr⟩
      refine ⟨(a, RResult.ok) :: pre, a2, rest2, by rw [hsplit]; rfl, ?_, ?_⟩
      · intro q hq
        rcases List.mem_cons.mp hq with h1 | h2
        · rw [h1]
        · exact hpre q h2
      · simp only [List.map_cons] at htr ⊢
        rw [htr]
        simp
    | err e2 =>
      simp only [run_steps, andThen] at h
      rw [run_steps_after_failure] at h
      rw [Prod.mk.injEq] at h
      obtain ⟨h1, h2⟩ := h
      simp only [Option.some_inj] at h2
      subst h2
      exact ⟨[], a, rest, rfl, by intro q hq; simp at hq, by simpa using h1.symm⟩

/-- Claim C1: when every requested call succeeds, the dispatcher performs
exactly the canonical sequence: tree build first, then the requested
actions in the fixed order list-requirements, fetch, build, clean followed
immediately by a tree rebuild, execute; the flags form a set, so the order
they were given in is immaterial; unrequested actions are absent, and with
zero requested actions only tree materialization happens. -/
theorem c1_dispatch_order (f : Flags) (b : StageOutcomes)
    (h : ∀ p ∈ dispatch_steps f b, p.2 = RResult.ok) :
    run_app_stages f b = (canonical_trace f, none)
    ∧ (canonical_trace f).head? = some Action.treeBuild
    ∧ canonical_trace ⟨false, false, false, false, false⟩ = [Action.treeBuild] := by
  refine ⟨?_, rfl, rfl⟩
  rw [run_app_stages_eq_run_steps, run_steps_all_ok (dispatch_steps f b) [] h]
  rw [dispatch_steps_fst]
  rfl

/-- Witness for claim C1: all five actions requested, every call
succeeding. -/
theorem c1_dispatch_order_witness :
    run_app_stages ⟨true, true, true, true, true⟩
        ⟨RResult.ok, RResult.ok, RResult.ok, RResult.ok, RResult.ok, RResult.ok⟩
      = (canonical_trace ⟨true, true, true, true, true⟩, none) :=
  (c1_dispatch_order ⟨true, true, true, true, true⟩
    ⟨RResult.ok, RResult.ok, RResult.ok, RResult.ok, RResult.ok, RResult.ok⟩
    (by decide)).1

/-- Claim C2: whenever run_app returns an error, the dispatch sequence
splits as the successful calls before the failing one, the failing call
itself, and the never-invoked remainder; the trace contains exactly the
prefix through the failing call, and the returned error is that call's own
failure, unchanged.  In particular a clean or build failure leaves every
later stage, execute included, uninvoked. -/
theorem c2_fail_fast (f : Flags) (b : StageOutcomes) (e : AppError)
    (h : (run_app_stages f b).2 = some e) :
    ∃ pre a rest,
      dispatch_steps f b = pre ++ (a, RResult.err e) :: rest
      ∧ (∀ p ∈ pre, p.2 = RResult.ok)
      ∧ (run_app_stages f b).1 = pre.map Prod.fst ++ [a] := by
  rw [run_app_stages_eq_run_steps] at h ⊢
  rcases hrun : run_steps ([], none) (dispatch_steps f b) with ⟨tr2, res⟩
  rw [hrun] at h
  simp only at h
  subst h
  rcases run_steps_error_split (dispatch_steps f b) [] tr2 e hrun with
    ⟨pre, a, rest, hsplit, hpre, htr⟩
  exact ⟨pre, a, rest, hsplit, hpre, by simpa using htr⟩

/-- Witness for claim C2: clean and execute requested together, clean
failing; the trace stops at clean and execute is never invoked. -/
theorem c2_fail_fast_witness :
    ∃ pre a rest,
      dispatch_steps ⟨false, false, false, true, true⟩
          ⟨RResult.ok, RResult.ok, RResult.ok,
            RResult.err (AppError.ExternalError ("clean failed".toList)), RResult.ok, RResult.ok⟩
        = pre ++ (a, RResult.err (AppError.ExternalError ("clean failed".toList))) :: rest
      ∧ (∀ p ∈ pre, p.2 = RResult.ok)
      ∧ (run_app_stages ⟨false, false, false, true, true⟩
          ⟨RResult.ok, RResult.ok, RResult.ok,
            RResult.err (AppError.ExternalError ("clean failed".toList)), RResult.ok, RResult.ok⟩).1
        = pre.map Prod.fst ++ [a] :=
  c2_fail_fast ⟨false, false, false, true, true⟩
    ⟨RResult.ok, RResult.ok, RResult.ok,
      RResult.err (AppError.ExternalError ("clean failed".toList)), RResult.ok, RResult.ok⟩
    (AppError.ExternalError ("clean failed".toList))
    (by decide)

/-! ## Tree builder (src/main.rs lines 118-155)

The filesystem is modelled as a list of existing entries, each a path with
its kind (directory or plain file), plus a set of paths where directory
creation is refused (permission denied).  Paths are component lists
relative to the working directory; the project path and the experiment
names are taken as single components.  Path exists is true for an entry of
any kind; create_dir appends a directory entry and fails when the path is
denied, the parent is missing or not a directory, or the target already
exists. -/

/-- The kind of an on-disk entry: a directory or a non-directory file. -/
inductive EntryKind where
  | dir
  | file
deriving DecidableEq

/-- The filesystem state: existing entries with their kinds, and the paths
where directory creation is refused. -/
structure FS where
  entries : List (List (List Char) × EntryKind)
  denied : List (List (List Char))
deriving DecidableEq

/-- Path exists of the Rust standard library: true when an entry of any
kind occupies the path. -/
def FS.exists_entry (fs : FS) (t : List (List Char)) : Bool :=
  fs.entries.any (fun p => decide (p.1 = t))

/-- The kind of the entry at a path, none when the path is vacant. -/
def FS.kind_of (fs : FS) (t : List (List Char)) : Option EntryKind :=
  (fs.entries.find? (fun p => decide (p.1 = t))).map Prod.snd

/-- Modelled semantics of create_dir of the Rust standard library: fails
with permission denied on a denied path, with not-found or
not-a-directory when the parent (other than the working directory) is
missing or is a file, and with already-exists on an occupied path;
otherwise records the new directory. -/
def FS.create_dir (fs : FS) (t : List (List Char)) : Except IOErrorKind FS :=
  if t ∈ fs.denied then .error IOErrorKind.permissionDenied
  else if t.dropLast ≠ [] ∧ fs.kind_of t.dropLast ≠ some EntryKind.dir then
    (if fs.kind_of t.dropLast = none then .error IOErrorKind.notFound
     else .error IOErrorKind.notADirectory)
  else if (fs.kind_of t).isSome then .error IOErrorKind.alreadyExists
  else .ok { fs with entries := fs.entries ++ [(t, EntryKind.dir)] }

/-- The rendering of a path used in the reported error, mirroring to_str
of the joined path: components joined by the separator. -/
def path_chars : List (List Char) → List Char
  | [] => []
  | [x] => x
  | x :: y :: rest => x ++ '/' :: path_chars (y :: rest)

/-- The src path component (src/main.rs line 130). -/
def srcSeg : List Char := "src".toList

/-- The logs path component (src/main.rs line 137). -/
def logsSeg : List Char := "logs".toList

/-- The block repeated for each target in create_tree (src/main.rs lines
124-152): skip an existing target, otherwise create it, mapping an io
failure into IOError carrying the failing path, which aborts the rest via
the question-mark operator. -/
def ensure_dir (fs : FS) (t : List (List Char)) : Except AppError FS :=
  if fs.exists_entry t then .ok fs
  else
    match fs.create_dir t with
    | .ok fs2 => .ok fs2
    | .error k => .error (AppError.IOError (path_chars t) k)

/-- The for loop of create_tree (src/main.rs lines 144-152): one
logs-subdirectory per experiment, in experiment order. -/
def create_exp_dirs (root : List Char) (fs : FS) : List Experiment → Except AppError FS
  | [] => .ok fs
  | ex :: rest =>
    match ensure_dir fs [root, logsSeg, ex.name] with
    | .ok fs2 => create_exp_dirs root fs2 rest
    | .error e => .error e

/-- create_tree (src/main.rs lines 118-155): the project root, its src
child, its logs child, then one logs child per experiment, each ensured in
that order. -/
def create_tree (p : Project) (fs : FS) : Except AppError FS :=
  match ensure_dir fs [p.path] with
  | .error e => .error e
  | .ok fs1 =>
    match ensure_dir fs1 [p.path, srcSeg] with
    | .error e => .error e
    | .ok fs2 =>
      match ensure_dir fs2 [p.path, logsSeg] with
      | .error e => .error e
      | .ok fs3 => create_exp_dirs p.path fs3 p.experiments

/-- The targets create_tree processes, in processing order. -/
def tree_targets (p : Project) : List (List (List Char)) :=
  [p.path] :: [p.path, srcSeg] :: [p.path, logsSeg] ::
    p.experiments.map (fun ex => [p.path, logsSeg, ex.name])

/-- Sequential ensuring of a list of targets, aborting at the first
failure. -/
def ensure_all (fs : FS) : List (List (List Char)) → Except AppError FS
  | [] => .ok fs
  | t :: rest =>
    match ensure_dir fs t with
    | .ok fs2 => ensure_all fs2 rest
    | .error e => .error e

theorem create_exp_dirs_eq (root : List Char) :
    ∀ (l : List Experiment) (fs : FS),
      create_exp_dirs root fs l
        = ensure_all fs (l.map (fun ex => [root, logsSeg, ex.name])) := by
  intro l
  induction l with
  | nil => intro fs; rfl
  | cons ex rest ih =>
    intro fs
    simp only [List.map_cons, create_exp_dirs, ensure_all]
    cases ensure_dir fs [root, logsSeg, ex.name] with
    | ok fs2 => exact ih fs2
    | error e => rfl

theorem create_tree_eq_ensure_all (p : Project) (fs : FS) :
    create_tree p fs = ensure_all fs (tree_targets p) := by
  cases h1 : ensure_dir fs [p.path] with
  | error e => simp [create_tree, tree_targets, ensure_all, h1]
  | ok fs1 =>
    cases h2 : ensure_dir fs1 [p.path, srcSeg] with
    | error e => simp [create_tree, tree_targets, ensure_all, h1, h2]
    | ok fs2 =>
      cases h3 : ensure_dir fs2 [p.path, logsSeg] with
      | error e => simp [create_tree, tree_targets, ensure_all, h1, h2, h3]
      | ok fs3 =>
        simp only [create_tree, tree_targets, ensure_all, h1, h2, h3]
        exact create_exp_dirs_eq p.path p.experiments fs3

theorem ensure_dir_exists (fs : FS) (t : List (List Char))
    (h : fs.exists_entry t = true) : ensure_dir fs t = .ok fs := by
  simp [ensure_dir, h]

theorem ensure_dir_not_exists (fs : FS) (t : List (List Char))
    (h : fs.exists_entry t = false) :
    ensure_dir fs t = (match fs.create_dir t with
      | .ok fs2 => .ok fs2
      | .error k => .error (AppError.IOError (path_chars t) k)) := by
  simp [ensure_dir, h]

theorem ensure_dir_error (fs : FS) (t : List (List Char)) (e : AppError)
    (h : ensure_dir fs t = .error e) :
    fs.exists_entry t = false
    ∧ ∃ k, fs.create_dir t = .error k ∧ e = AppError.IOError (path_chars t) k := by
  cases hex : fs.exists_entry t with
  | true => rw [ensure_dir_exists fs t hex] at h; exact absurd h (by simp)
  | false =>
    rw [ensure_dir_not_exists fs t hex] at h
    refine ⟨rfl, ?_⟩
    cases hcd : fs.create_dir t with
    | ok fs2 => rw [hcd] at h; exact absurd h (by simp)
    | error k =>
      rw [hcd] at h
      simp only [Except.error.injEq] at h
      exact ⟨k, rfl, h.symm⟩

theorem create_dir_ok_entries {fs g : FS} {t : List (List Char)}
    (h : fs.create_dir t = .ok g) :
    g.entries = fs.entries ++ [(t, EntryKind.dir)] := by
  by_cases h1 : t ∈ fs.denied
  · simp [FS.create_dir, h1] at h
  · by_cases h2 : t.dropLast ≠ [] ∧ fs.kind_of t.dropLast ≠ some EntryKind.dir
    · by_cases h3 : fs.kind_of t.dropLast = none <;>
        simp [FS.create_dir, h1, h2, h3] at h
    · by_cases h4 : (fs.kind_of t).isSome
      · simp [FS.create_dir, h1, h2, h4] at h
      · simp only [FS.create_dir, if_neg h1, if_neg h2, h4, Bool.false_eq_true,
          if_false, Except.ok.injEq] at h
        rw [← h]

theorem exists_entry_of_mem {g : FS} {t : List (List Char)} {k : EntryKind}
    (h : (t, k) ∈ g.entries) : g.exists_entry t = true := by
  simp only [FS.exists_entry, List.any_eq_true, decide_eq_true_eq]
  exact ⟨(t, k), h, rfl⟩

theorem exists_entry_create {fs g : FS} {t : List (List Char)}
    (h : fs.create_dir t = .ok g) :
    ∀ s, g.exists_entry s = (fs.exists_entry s || decide (t = s)) := by
  intro s
  have he := create_dir_ok_entries h
  simp [FS.exists_entry, he, List.any_append]

theorem ensure_dir_ok {fs g : FS} {t : List (List Char)}
    (h : ensure_dir fs t = .ok g) :
    (∀ s, fs.exists_entry s = true → g.exists_entry s = true)
    ∧ g.exists_entry t = true := by
  cases hex : fs.exists_entry t with
  | true =>
    rw [ensure_dir_exists fs t hex] at h
    simp only [Except.ok.injEq] at h
    subst h
    exact ⟨fun s hs => hs, hex⟩
  | false =>
    rw [ensure_dir_not_exists fs t hex] at h
    cases hcd : fs.create_dir t with
    | error k => rw [hcd] at h; exact absurd h (by simp)
    | ok g2 =>
      rw [hcd] at h
      simp only [Except.ok.injEq] at h
      subst h
      have hc := exists_entry_create hcd
      constructor
      · intro s hs
        rw [hc s, hs]
        rfl
      · rw [hc t, hex]
        simp

theorem ensure_all_ok_exists :
    ∀ (ts : List (List (List Char))) (fs g : FS),
      ensure_all fs ts = .ok g →
      (∀ s, fs.exists_entry s = true → g.exists_entry s = true)
      ∧ (∀ t ∈ ts, g.exists_entry t = true) := by
  intro ts
  induction ts with
  | nil =>
    intro fs g h
    simp only [ensure_all, Except.ok.injEq] at h
    subst h
    exact ⟨fun s hs => hs, by intro t ht; simp at ht⟩
  | cons t rest ih =>
    intro fs g h
    simp only [ensure_all] at h
    cases hd : ensure_dir fs t with
    | error e => rw [hd] at h; exact absurd h (by simp)
    | ok fs2 =>
      rw [hd] at h
      rcases ih fs2 g h with ⟨mono2, hall⟩
      rcases ensure_dir_ok hd with ⟨mono1, ht⟩
      refine ⟨fun s hs => mono2 s (mono1 s hs), ?_⟩
      intro t2 ht2
      rcases List.mem_cons.mp ht2 with h1 | h2
      · subst h1; exact mono2 t2 ht
      · exact hall t2 h2

theorem ensure_all_skip :
    ∀ (ts : List (List (List Char))) (fs : FS),
      (∀ t ∈ ts, fs.exists_entry t = true) → ensure_all fs ts = .ok fs := by
  intro ts
  induction ts with
  | nil => intro fs _; rfl
  | cons t rest ih =>
    intro fs h
    have ht : fs.exists_entry t = true := h t (List.mem_cons_self _ _)
    simp only [ensure_all, ensure_dir_exists fs t ht]
    exact ih fs (fun t2 h2 => h t2 (List.mem_cons_of_mem _ h2))

theorem ensure_all_error_split :
    ∀ (ts : List (List (List Char))) (fs : FS) (e : AppError),
      ensure_all fs ts = .error e →
      ∃ pre t rest g k,
        ts = pre ++ t :: rest
        ∧ ensure_all fs pre = .ok g
        ∧ g.exists_entry t = false
        ∧ g.create_dir t = .error k
        ∧ e = AppError.IOError (path_chars t) k := by
  intro ts
  induction ts with
  | nil => intro fs e h; simp [ensure_all] at h
  | cons t rest ih =>
    intro fs e h
    simp only [ensure_all] at h
    cases hd : ensure_dir fs t with
    | ok fs2 =>
      rw [hd] at h
      rcases ih fs2 e h with ⟨pre, t2, rest2, g, k, hsplit, hpre, hex, hcd, he⟩
      refine ⟨t :: pre, t2, rest2, g, k, by rw [hsplit]; rfl, ?_, hex, hcd, he⟩
      simp only [ensure_all, hd]
      exact hpre
    | error e2 =>
      rw [hd] at h
      simp only [Except.error.injEq] at h
      subst h
      rcases ensure_dir_error fs t e2 hd with ⟨hex, k, hcd, he⟩
      exact ⟨[], t, rest, fs, k, rfl, rfl, hex, hcd, he⟩

/-- Shared concrete inputs used by the tree-builder witnesses: a project
named proj with one experiment e1, the empty filesystem, the filesystem
holding the full tree, a filesystem denying creation of the root, and a
filesystem where a plain file occupies the root. -/
def projSeg : List Char := "proj".toList

def e1Seg : List Char := "e1".toList

def exProj : Project := ⟨projSeg, [], [⟨e1Seg⟩]⟩

def exEmptyFS : FS := ⟨[], []⟩

def exTreeFS : FS :=
  ⟨[([projSeg], EntryKind.dir), ([projSeg, srcSeg], EntryKind.dir),
    ([projSeg, logsSeg], EntryKind.dir), ([projSeg, logsSeg, e1Seg], EntryKind.dir)], []⟩

def exDeniedFS : FS := ⟨[], [[projSeg]]⟩

def exFileRootFS : FS := ⟨[([projSeg], EntryKind.file)], []⟩

/-- Claim C3: create_tree processes exactly the root, src, logs and
per-experiment targets in that order; an existing target is skipped and a
missing one is created; the first failing creation aborts the remaining
ones and the returned error carries the failing path and the underlying
cause. -/
theorem c3_tree_builder (p : Project) (fs : FS) :
    create_tree p fs = ensure_all fs (tree_targets p)
    ∧ (∀ (g : FS) (t : List (List Char)), g.exists_entry t = true → ensure_dir g t = .ok g)
    ∧ (∀ (g : FS) (t : List (List Char)), g.exists_entry t = false →
        ensure_dir g t = (match g.create_dir t with
          | .ok g2 => .ok g2
          | .error k => .error (AppError.IOError (path_chars t) k)))
    ∧ (∀ e, create_tree p fs = .error e →
        ∃ pre t rest g k,
          tree_targets p = pre ++ t :: rest
          ∧ ensure_all fs pre = .ok g
          ∧ g.exists_entry t = false
          ∧ g.create_dir t = .error k
          ∧ e = AppError.IOError (path_chars t) k) := by
  refine ⟨create_tree_eq_ensure_all p fs, ensure_dir_exists, ensure_dir_not_exists, ?_⟩
  intro e h
  rw [create_tree_eq_ensure_all] at h
  exact ensure_all_error_split (tree_targets p) fs e h

/-- Witness for claim C3: with creation of the root denied, create_tree
fails at the first target and reports the root path with the
permission-denied cause. -/
theorem c3_tree_builder_witness :
    ∃ pre t rest g k,
      tree_targets exProj = pre ++ t :: rest
      ∧ ensure_all exDeniedFS pre = .ok g
      ∧ g.exists_entry t = false
      ∧ g.create_dir t = .error k
      ∧ AppError.IOError (path_chars [projSeg]) IOErrorKind.permissionDenied
          = AppError.IOError (path_chars t) k :=
  (c3_tree_builder exProj exDeniedFS).2.2.2
    (AppError.IOError (path_chars [projSeg]) IOErrorKind.permissionDenied) (by decide)

/-- Claim C4: create_tree is idempotent: after a successful run, running it
again from the resulting state succeeds and changes nothing; every target
exists after any successful run, so the skeleton rebuilt after a clean is
the same as the skeleton of a fresh initial run on the same Project. -/
theorem c4_idempotent (p : Project) (fs fs1 : FS)
    (h : create_tree p fs = .ok fs1) :
    create_tree p fs1 = .ok fs1
    ∧ (∀ t ∈ tree_targets p, fs1.exists_entry t = true)
    ∧ (∀ fs2 fs3, create_tree p fs2 = .ok fs3 →
        ∀ t ∈ tree_targets p, fs3.exists_entry t = true) := by
  have key : ∀ fs2 fs3, create_tree p fs2 = .ok fs3 →
      ∀ t ∈ tree_targets p, fs3.exists_entry t = true := by
    intro fs2 fs3 h2 t ht
    rw [create_tree_eq_ensure_all] at h2
    exact (ensure_all_ok_exists (tree_targets p) fs2 fs3 h2).2 t ht
  have hex := key fs fs1 h
  refine ⟨?_, hex, key⟩
  rw [create_tree_eq_ensure_all]
  exact ensure_all_skip (tree_targets p) fs1 hex

/-- Witness for claim C4: a fresh run on the example project from the empty
filesystem builds the full tree, and the rerun from that state is an
unchanging success. -/
theorem c4_idempotent_witness :
    create_tree exProj exTreeFS = .ok exTreeFS :=
  (c4_idempotent exProj exEmptyFS exTreeFS (by decide)).1

/-- Claim C10: create_tree attempts a creation only at vacant targets: a
target occupied by an entry of any kind, a plain file included, is skipped
without an error from that step, and an error can only arise at a vacant
target; with a file occupying the project root, the run fails only at the
next creation, whose parent is unusable, reporting the src path with the
not-a-directory cause. -/
theorem c10_skip_any_kind :
    (∀ (g : FS) (t : List (List Char)) (k : EntryKind),
        (t, k) ∈ g.entries → ensure_dir g t = .ok g)
    ∧ (∀ (g : FS) (t : List (List Char)) (e : AppError),
        ensure_dir g t = .error e → g.exists_entry t = false)
    ∧ create_tree ⟨projSeg, [], []⟩ exFileRootFS
        = .error (AppError.IOError (path_chars [projSeg, srcSeg]) IOErrorKind.notADirectory) := by
  refine ⟨?_, ?_, by decide⟩
  · intro g t k h
    exact ensure_dir_exists g t (exists_entry_of_mem h)
  · intro g t e h
    exact (ensure_dir_error g t e h).1

/-- Witness for claim C10: the file entry occupying the root makes the root
target a skip, not an error. -/
theorem c10_skip_any_kind_witness :
    ensure_dir exFileRootFS [projSeg] = .ok exFileRootFS :=
  c10_skip_any_kind.1 exFileRootFS [projSeg] EntryKind.file (by decide)

end Replikate
